import Mathlib

/-!
Verification model of the mooncats document-tree builder.

Each definition in this file is a shallow embedding of the corresponding
Rust item (files `src/location.rs`, `src/json.rs`, `src/workspace.rs`,
`src/doctree.rs`, `src/passes/*.rs`).  Machine integers are modelled as
`Nat` with explicit wrap-around where the source's `u64` arithmetic can
wrap; fallible code (`anyhow::Result`) is modelled with `Except String`;
`HashMap`s are modelled as association lists (their iteration order is
never load-bearing for the properties below; where the source overwrites
an existing key the model replaces the entry in place).

Rust string operations are re-implemented structurally over `List Char`
so that all definitions are executable inside the kernel; the helpers are
named after the `str` methods they model.
-/

namespace Mooncats

/-- Model of `str` lexicographic comparison (`<` on Rust `String` compares
UTF-8 bytes, which orders exactly like unicode scalar values). -/
def strCmpChars : List Char → List Char → Ordering
  | x :: xs, y :: ys =>
    if x < y then .lt else if y < x then .gt else strCmpChars xs ys
  | _ :: _, [] => .gt
  | [], _ :: _ => .lt
  | [], [] => .eq

/-- Ordering on strings, by characters. -/
def cmpStr (a b : String) : Ordering :=
  strCmpChars a.data b.data

/-- Boolean `a < b` on strings. -/
def strLtB (a b : String) : Bool :=
  cmpStr a b == .lt

/-- Model of `str::split(sep)` on a character list: split on every
occurrence of `sep`, keeping empty pieces (as Rust does). -/
def splitCharAux (sep : Char) : List Char → List (List Char)
  | [] => [[]]
  | c :: cs =>
    if c = sep then [] :: splitCharAux sep cs
    else
      match splitCharAux sep cs with
      | [] => [[c]]
      | p :: ps => (c :: p) :: ps

/-- Model of `str::split(sep)` returning strings. -/
def splitChar (sep : Char) (s : String) : List String :=
  (splitCharAux sep s.data).map String.mk

/-- Model of `str::get(n..)` by characters (only applied to ASCII data in
this development, where bytes and chars coincide). -/
def strDrop (n : Nat) (s : String) : String :=
  String.mk (s.data.drop n)

/-- Model of `str::splitn(2, ".")` followed by `collect_tuple::<(_, _)>`:
`some (before-first-dot, rest)` when the string contains a dot, `none`
otherwise (`splitn(2, _)` yields a single piece then, and collecting one
piece into a pair fails). -/
def splitOnceDot (s : String) : Option (String × String) :=
  match splitChar '.' s with
  | [] => none
  | [_] => none
  | x :: rest => some (x, String.intercalate "." rest)

/-! ## `src/location.rs` -/

/-- A position within a document (`Position` in `src/location.rs`).  Both
fields are `u64` in the source; they are modelled as `Nat`, with the
wrap-around of `u64` arithmetic made explicit in `Position.pack`. -/
structure Position where
  line : Nat
  character : Nat
deriving DecidableEq

/-- `Position::unpack`: decode a single integer using the LuaLS encoding. -/
def Position.unpack (position : Nat) : Position :=
  ⟨position / 10000, position % 10000⟩

/-- `Position::pack`: `self.line * 10_000 + self.character.min(10_000 - 1)`
on `u64`, hence reduced modulo `2 ^ 64`. -/
def Position.pack (p : Position) : Nat :=
  (p.line * 10000 + min p.character (10000 - 1)) % (2 ^ 64)

/-- Strict lexicographic order on positions: the source derives
`PartialOrd`/`Ord` on `Position { line, character }`, which compares
`line` first, then `character`. -/
def Position.ltb (a b : Position) : Bool :=
  a.line < b.line || (a.line == b.line && a.character < b.character)

/-- Non-strict lexicographic order on positions. -/
def Position.leb (a b : Position) : Bool :=
  Position.ltb a b || a == b

/-- A range of characters between two positions (`Range` in
`src/location.rs`).  The source's field `end` is a Lean keyword, hence
`end_`. -/
structure Range where
  start : Position
  end_ : Position
deriving DecidableEq

/-- `Range::new` asserts `start <= end`; the fatal `assert!` is modelled
as `none`. -/
def Range.new (start end_ : Position) : Option Range :=
  if Position.leb start end_ then some ⟨start, end_⟩ else none

/-- `Range::join`: if `other.start < self.end` return `self` unchanged,
otherwise the range from `self.start` to `other.end`. -/
def Range.join (r other : Range) : Range :=
  if Position.ltb other.start r.end_ then r else ⟨r.start, other.end_⟩

/-- A parsed absolute URL, as far as this crate observes it: scheme,
authority (host/port) and serialized path.  `FileUri` in
`src/location.rs` wraps such a URL; `src/workspace.rs` uses the raw URL.
For `file` URLs produced by the `url` crate the path always starts with
`/` and the host is the empty string. -/
structure Url where
  scheme : String
  host : Option String
  port : Option Nat
  path : String
deriving DecidableEq

/-- Model of `Url::path_segments` for URLs whose path starts with `/`
(always the case for the `file` URLs handled here): the pieces of the
path after the leading slash, split on `/`. -/
def Url.pathSegments (u : Url) : List String :=
  splitChar '/' (strDrop 1 u.path)

/-- `FileUri::file_name`: the last path segment. -/
def Url.fileName (u : Url) : String :=
  u.pathSegments.getLastD ""

/-- `FileUri::split_file_at_dot`: the source collects
`name.rsplitn(2, ".")` into a `(stem, ext)` tuple.  `rsplitn` yields the
piece after the last dot FIRST, so for a dotted name the tuple is
(after-last-dot, before-last-dot); an undotted name yields `(name, "")`. -/
def Url.splitFileAtDot (u : Url) : String × String :=
  let name := u.fileName
  match splitChar '.' name with
  | [] => (name, "")
  | [_] => (name, "")
  | parts => (parts.getLastD "", String.intercalate "." parts.dropLast)

/-- `FileUri::file_stem`: first component of `split_file_at_dot` (which,
per the swapped `rsplitn` destructuring above, is the part after the last
dot for dotted names). -/
def Url.fileStem (u : Url) : String :=
  u.splitFileAtDot.1

/-- `FileUri::depth`: number of path segments not counting the last one
(the file name).  The source computes `(n - 1).max(0)`; `Nat` subtraction
already truncates at zero. -/
def Url.depth (u : Url) : Nat :=
  u.pathSegments.length - 1

/-- Modelled from the spec: `FileUri::relative_depth` is called by
`src/doctree.rs` but absent from `src/location.rs` in this snapshot.
Per spec §4.5 a direct child of the root has relative depth 1, so the
relative depth is the number of path segments below the root. -/
def Url.relativeDepth (u root : Url) : Nat :=
  u.pathSegments.length - root.pathSegments.length

/-- Modelled from the spec: `FileUri::dirname` is called by
`src/doctree.rs` but absent from `src/location.rs` in this snapshot.
Per spec §4.5 it is the candidate's parent-directory name, i.e. the path
segment immediately before the file name (none for a file directly under
the URI root). -/
def Url.dirname (u : Url) : Option String :=
  u.pathSegments.dropLast.getLast?

/-! ## The input schema (`src/json.rs` as consumed by `src/doctree.rs`)

`src/doctree.rs` and the passes import `json::{ArgType, DefineType,
Definition, DefinitionType, Extends, ExtendsType, FieldType}`; the
variants below are exactly the ones those files match on (spec §3 lists
the same define kinds and extends tags). -/

/-- The kind tag of one `define` record. -/
inductive DefineType where
  | DocAlias
  | DocClass
  | DocEnum
  | DocField
  | TableField
  | SetGlobal
  | SetField
  | SetMethod
  | SetIndex
deriving DecidableEq

/-- The type tag of an `extends` record. -/
inductive ExtendsType where
  | DocExtendsName
  | DocType
  | Binary
  | Function
  | Integer
  | Nil
  | Number
  | String
  | Table
deriving DecidableEq

/-- Top-level flavor of a definition (`"type"` / `"variable"` on the
wire; `type` and `variable` are Lean keywords). -/
inductive DefinitionType where
  | typeKind
  | variableKind
deriving DecidableEq

/-- Argument kind tags matched by `Argument::parse`. -/
inductive ArgType where
  | DocType
  | Local
  | SelfType
  | VarArg
deriving DecidableEq

/-- Field kind tags (`doc.field` / `setmethod` / `setfield`). -/
inductive FieldType where
  | DocField
  | SetMethod
  | SetField
deriving DecidableEq

/-- A function argument in the input schema (`json::FuncArg`). -/
structure FuncArg where
  name : Option String
  arg_type : ArgType
  rawdesc : Option String
  view : String
deriving DecidableEq

/-- A function return in the input schema (`json::FuncReturn`). -/
structure FuncReturn where
  name : Option String
  rawdesc : Option String
  view : String
deriving DecidableEq

/-- An `extends` record: what a define assigns (`json::Extends`).  The
field `extends` of the Rust structs holding one is spelled `extends_`
here because `extends` is a Lean keyword. -/
structure Extends where
  extends_type : ExtendsType
  view : String
  rawdesc : Option String
  args : List FuncArg
  returns : List FuncReturn
deriving DecidableEq

/-- A location: file identifier plus range (`Location` in
`src/location.rs`). -/
structure Location where
  file : Url
  range : Range
deriving DecidableEq

/-- One `define` record (`json::Define`). -/
structure Define where
  define_type : DefineType
  location : Location
  extends_ : List Extends
deriving DecidableEq

/-- A field of a type-like definition (`json::Field`; named `JField` to
avoid clashing with the output `Field` of `src/doctree.rs`). -/
structure JField where
  name : String
  rawdesc : Option String
  field_type : FieldType
  extends_ : Extends
deriving DecidableEq

/-- `nonempty::NonEmpty`: a head plus possibly-empty tail. -/
structure NEList (α : Type) where
  head : α
  tail : List α
deriving DecidableEq

/-- The underlying list of a non-empty list. -/
def NEList.toList {α : Type} (l : NEList α) : List α :=
  l.head :: l.tail

/-- One input record (`json::Definition`). -/
structure Definition where
  definition_type : DefinitionType
  name : String
  rawdesc : Option String
  defines : NEList Define
  fields : List JField
deriving DecidableEq

/-! ## The output model (`src/doctree.rs`) -/

/-- An output field (`doctree::Field`). -/
structure Field where
  name : String
  description : Option String
  lua_type : String
deriving DecidableEq

/-- An output argument (`doctree::Argument`). -/
structure Argument where
  name : Option String
  description : Option String
  arg_type : String
deriving DecidableEq

/-- An output return (`doctree::Return`). -/
structure Return where
  name : Option String
  return_type : String
  description : Option String
deriving DecidableEq

/-- An output function signature (`doctree::Function`). -/
structure Function where
  description : Option String
  view : String
  arguments : List Argument
  returns : List Return
deriving DecidableEq

/-- A named function (`doctree::NamedFunction`). -/
structure NamedFunction where
  name : String
  function : Function
deriving DecidableEq

/-- A type alias (`doctree::TypeAlias`). -/
structure TypeAlias where
  aliased_type : String
deriving DecidableEq

/-- A table item (`doctree::Table`); the `HashMap`s keyed by name are
modelled as association lists. -/
structure Table where
  view : String
  fields : List (String × Field)
  functions : List (String × NamedFunction)
deriving DecidableEq

/-- An enum item (`doctree::Enum`). -/
structure Enum where
  fields : List (String × Field)
deriving DecidableEq

/-- A class item (`doctree::Class`). -/
structure Class where
  fields : List Field
  methods : List NamedFunction
deriving DecidableEq

/-- A primitive global (`doctree::PrimitiveGlobal`). -/
structure PrimitiveGlobal where
  primitive_type : String
deriving DecidableEq

/-- A global item (`doctree::Global`). -/
inductive Global where
  | Primitive (p : PrimitiveGlobal)
  | Function (f : Function)
deriving DecidableEq

/-- The tagged body of a doc item (`doctree::DocItemEnum`). -/
inductive DocItemEnum where
  | Class (c : Class)
  | Table (t : Table)
  | TypeAlias (t : TypeAlias)
  | Enum (e : Enum)
  | Global (g : Global)
deriving DecidableEq

/-- One documented top-level symbol (`doctree::DocItem`). -/
structure DocItem where
  name : String
  description : Option String
  range : Range
  inner : DocItemEnum
deriving DecidableEq

/-! ### Association-list counterparts of the `HashMap` operations -/

/-- Model of `HashMap::insert`: replace the value at an existing key,
otherwise append a fresh entry. -/
def insertAL {α : Type} (l : List (String × α)) (k : String) (v : α) :
    List (String × α) :=
  if l.any (fun p => p.1 == k) then
    l.map (fun p => if p.1 == k then (p.1, v) else p)
  else
    l ++ [(k, v)]

/-- Model of `HashMap::get`/`get_mut` (read side). -/
def findAL {α : Type} (l : List (String × α)) (k : String) : Option α :=
  (l.find? (fun p => p.1 == k)).map (fun p => p.2)

/-- Model of writing through `HashMap::get_mut`: replace the value at the
key in place. -/
def setAL {α : Type} (l : List (String × α)) (k : String) (v : α) :
    List (String × α) :=
  l.map (fun p => if p.1 == k then (p.1, v) else p)

/-- `Table::add_field`. -/
def Table.add_field (t : Table) (field : Field) : Table :=
  { t with fields := insertAL t.fields field.name field }

/-- `Table::add_function`. -/
def Table.add_function (t : Table) (function : NamedFunction) : Table :=
  { t with functions := insertAL t.functions function.name function }

/-- `Enum.add_field`. -/
def Enum.add_field (e : Enum) (field : Field) : Enum :=
  { e with fields := insertAL e.fields field.name field }

/-! ### Item parsing (`src/doctree.rs`, pass 1) -/

/-- `Argument::parse`.  The Rust function returns `Result` but every
branch is `Ok`, so it is modelled as a total function. -/
def Argument.parse (arg : FuncArg) : Argument :=
  let arg_type :=
    match arg.arg_type with
    | .DocType => arg.view
    | .Local => arg.view
    | .SelfType => "self"
    | .VarArg => "..."
  ⟨arg.name, arg.rawdesc, arg_type⟩

/-- `Return::parse`; also total in the source. -/
def Return.parse (ret : FuncReturn) : Return :=
  ⟨ret.name, ret.view, ret.rawdesc⟩

/-- The `view.strip_prefix("(method) ")` normalization inside
`Function::parse` (that marker is 9 characters long). -/
def stripMethodView (view : String) : String :=
  if "(method) ".data.isPrefixOf view.data then strDrop 9 view else view

/-- `Function::parse`. -/
def Function.parse (ext : Extends) : Except String Function :=
  if ext.extends_type ≠ .Function then
    .error "ensure failed: extends_type == Function"
  else
    .ok ⟨ext.rawdesc, stripMethodView ext.view,
      ext.args.map Argument.parse, ext.returns.map Return.parse⟩

/-- `NamedFunction::parse`. -/
def NamedFunction.parse (field : JField) : Except String NamedFunction :=
  if field.field_type ≠ .SetMethod then
    .error "ensure failed: field_type == SetMethod"
  else if field.extends_.extends_type ≠ .Function then
    .error "ensure failed: extends_type == Function"
  else
    (Function.parse field.extends_).map (fun fn => ⟨field.name, fn⟩)

/-- `Field::parse` (on `json::Field`). -/
def Field.parse (field : JField) : Except String Field :=
  if field.field_type = .DocField ∨ field.field_type = .SetField then
    .ok ⟨field.name, field.rawdesc, field.extends_.view⟩
  else
    .error "ensure failed: field_type is doc.field or setfield"

/-- Comparison over `Option`, `None` first, as Rust's derived
`Ord` on `Option<T>` orders it. -/
def cmpOpt {α : Type} (c : α → α → Ordering) : Option α → Option α → Ordering
  | some x, some y => c x y
  | some _, none => .gt
  | none, some _ => .lt
  | none, none => .eq

/-- Lexicographic comparison over lists, as Rust's derived `Ord` on
`Vec<T>` orders it (a strict prefix comes first). -/
def cmpList {α : Type} (c : α → α → Ordering) : List α → List α → Ordering
  | x :: xs, y :: ys => (c x y).then (cmpList c xs ys)
  | _ :: _, [] => .gt
  | [], _ :: _ => .lt
  | [], [] => .eq

/-- Rust's derived `Ord` on `Argument` (field order: name, description,
arg_type). -/
def Argument.cmp (a b : Argument) : Ordering :=
  (cmpOpt cmpStr a.name b.name).then
    ((cmpOpt cmpStr a.description b.description).then
      (cmpStr a.arg_type b.arg_type))

/-- Rust's derived `Ord` on `Return` (field order: name, return_type,
description). -/
def Return.cmp (a b : Return) : Ordering :=
  (cmpOpt cmpStr a.name b.name).then
    ((cmpStr a.return_type b.return_type).then
      (cmpOpt cmpStr a.description b.description))

/-- Rust's derived `Ord` on `Function` (field order: description, view,
arguments, returns). -/
def Function.cmp (a b : Function) : Ordering :=
  (cmpOpt cmpStr a.description b.description).then
    ((cmpStr a.view b.view).then
      ((cmpList Argument.cmp a.arguments b.arguments).then
        (cmpList Return.cmp a.returns b.returns)))

/-- Rust's derived `Ord` on `NamedFunction` (name, then function). -/
def NamedFunction.cmp (a b : NamedFunction) : Ordering :=
  (cmpStr a.name b.name).then (Function.cmp a.function b.function)

/-- `itertools::merge` on two lists of named functions: take from the
left while the left head is `<=` the right head. -/
def mergeNamedFunctions : List NamedFunction → List NamedFunction → List NamedFunction
  | [], ys => ys
  | xs, [] => xs
  | x :: xs, y :: ys =>
    if NamedFunction.cmp x y ≠ .gt then
      x :: mergeNamedFunctions xs (y :: ys)
    else
      y :: mergeNamedFunctions (x :: xs) ys
termination_by xs ys => xs.length + ys.length

/-- `Class::parse`. -/
def Class.parse (definition : Definition) : Except String Class := do
  if definition.definition_type ≠ .typeKind then
    throw "ensure failed: definition_type == Type"
  else if definition.defines.head.define_type ≠ .DocClass then
    throw "ensure failed: define_type == DocClass"
  else
    let fields ← (definition.fields.filter (fun f =>
      (f.field_type == .DocField || f.field_type == .SetField)
        && f.extends_.extends_type != .Function)).mapM Field.parse
    let functions ← (definition.fields.filter (fun f =>
      f.field_type == .SetField
        && f.extends_.extends_type == .Function)).mapM
      (fun field => (Function.parse field.extends_).map
        (fun fn => NamedFunction.mk field.name fn))
    let methods ← (definition.fields.filter (fun f =>
      f.field_type == .SetMethod)).mapM NamedFunction.parse
    pure ⟨fields, mergeNamedFunctions functions methods⟩

/-- `TypeAlias::parse`. -/
def TypeAlias.parse (definition : Definition) : Except String TypeAlias :=
  if definition.defines.head.define_type ≠ .DocAlias then
    .error "ensure failed: define_type == DocAlias"
  else
    match definition.defines.head.extends_.head? with
    | none => .error "expected extends for type alias"
    | some ext =>
      if ext.extends_type ≠ .DocType then
        .error "ensure failed: extends_type == DocType"
      else
        .ok ⟨ext.view⟩

/-- `Enum::parse`. -/
def Enum.parse (definition : Definition) : Except String Enum :=
  if definition.defines.head.define_type ≠ .DocEnum then
    .error "ensure failed: define_type == DocEnum"
  else
    .ok ⟨[]⟩

/-- `Table::parse`. -/
def Table.parse (definition : Definition) : Except String Table :=
  if definition.defines.head.define_type ≠ .SetGlobal then
    .error "ensure failed: define_type == SetGlobal"
  else
    match definition.defines.head.extends_.head? with
    | none => .error "expected extends for setglobal"
    | some ext =>
      if ext.extends_type ≠ .Table then
        .error "ensure failed: extends_type == Table"
      else
        .ok ⟨ext.view, [], []⟩

/-- The five primitive extends tags accepted by `Global::parse`. -/
def isPrimitiveTag (t : ExtendsType) : Bool :=
  t == .Integer || t == .Nil || t == .Number || t == .String || t == .Binary

/-- `Global::parse`. -/
def Global.parse (definition : Definition) : Except String Global :=
  if definition.defines.head.define_type ≠ .SetGlobal then
    .error "ensure failed: define_type == SetGlobal"
  else
    match definition.defines.head.extends_.head? with
    | none => .error "expected extends for setglobal"
    | some ext =>
      if ¬(isPrimitiveTag ext.extends_type || ext.extends_type == .Function) then
        .error "ensure failed: extends_primitive or Function"
      else
        match ext.extends_type with
        | .Binary | .Integer | .Nil | .Number | .String =>
          .ok (.Primitive ⟨ext.view⟩)
        | .Function => (Function.parse ext).map .Function
        | _ => .error "unexpected extends type"

/-- `DocItem::parse` (pass 1 classification). -/
def DocItem.parse (definition : Definition) : Except String (Option DocItem) := do
  let inner : Option DocItemEnum ←
    match definition.defines.head.define_type with
    | .DocAlias => (TypeAlias.parse definition).map (fun t => some (.TypeAlias t))
    | .DocClass => (Class.parse definition).map (fun c => some (.Class c))
    | .DocEnum => (Enum.parse definition).map (fun e => some (.Enum e))
    | .SetGlobal =>
      match definition.defines.head.extends_.head? with
      | none => .error "expected extends for setglobal"
      | some ext =>
        match ext.extends_type with
        | .DocType | .DocExtendsName => .error "unexpected doc extend for setglobal"
        | .Table => (Table.parse definition).map (fun t => some (.Table t))
        | _ => (Global.parse definition).map (fun g => some (.Global g))
    | _ => pure none
  pure (inner.map (fun inr =>
    ⟨definition.name, definition.rawdesc,
      definition.defines.head.location.range, inr⟩))

/-! ### `MetaFile` and the doc tree (`src/doctree.rs`) -/

/-- One meta file: URI, child files (filled in by the tree builder) and
the name-keyed item map (`doctree::MetaFile`).  A recursive structure,
hence an inductive with explicit projections. -/
inductive MetaFile where
  | mk (uri : Url) (children : List MetaFile) (items : List (String × DocItem))

/-- The URI of a meta file. -/
def MetaFile.uri : MetaFile → Url
  | .mk u _ _ => u

/-- The children of a meta file. -/
def MetaFile.children : MetaFile → List MetaFile
  | .mk _ c _ => c

/-- The item map of a meta file. -/
def MetaFile.items : MetaFile → List (String × DocItem)
  | .mk _ _ i => i

/-- Replace the item map of a meta file (the passes mutate it in place). -/
def MetaFile.withItems : MetaFile → List (String × DocItem) → MetaFile
  | .mk u c _, i => .mk u c i

/-- `MetaFile::new`. -/
def MetaFile.new (uri : Url) : MetaFile :=
  .mk uri [] []

/-- `MetaFile::add_item`: keyed insertion by item name (overwrite wins). -/
def MetaFile.add_item (mf : MetaFile) (item : DocItem) : MetaFile :=
  mf.withItems (insertAL mf.items item.name item)

/-! ## `src/workspace.rs` -/

/-- A Lua file containing only LuaCats meta (`workspace::SourceFile`). -/
structure SourceFile where
  uri : Url
  definitions : List Definition
  text : String
deriving DecidableEq

/-- `SourceFile::new`. -/
def SourceFile.new (uri : Url) (text : String) : SourceFile :=
  ⟨uri, [], text⟩

/-- A workspace: root URI plus the file map (`workspace::Workspace`).
The `HashMap<Url, SourceFile>` is modelled as an association list. -/
structure Workspace where
  root : Url
  files : List (Url × SourceFile)

/-- `extract_path_filename` helper of `Url::make_relative` in the `url`
crate: split the serialized path at its last `/` (the part after it is
the file name); a path without `/` keeps everything but its first
character as the file name. -/
def extractPathFilename (s : String) : String × String :=
  match splitChar '/' s with
  | [] => ("", strDrop 1 s)
  | [_] => ("", strDrop 1 s)
  | parts => (String.intercalate "/" parts.dropLast, parts.getLastD "")

/-- Drop the common prefix of two segment lists (the skip loop of
`Url::make_relative`). -/
def dropCommonSegs : List String → List String → List String × List String
  | [], ys => ([], ys)
  | xs, [] => (xs, [])
  | x :: xs, y :: ys =>
    if x = y then dropCommonSegs xs ys else (x :: xs, y :: ys)

/-- Modelled from the `url` crate (an external dependency of
`src/workspace.rs`): `Url::make_relative` returns `none` exactly when the
scheme, host or port differ (or the base cannot be a base, which never
holds for the URLs with authority modelled here); otherwise it builds a
relative path string with one `../` per remaining base directory segment
(stopping at an empty segment) followed by the remaining path segments of
the target and its file name.  Queries and fragments are not modelled
(the crate's inputs here never carry them). -/
def makeRelative (base url : Url) : Option String :=
  if base.scheme ≠ url.scheme ∨ base.host ≠ url.host ∨ base.port ≠ url.port then
    none
  else
    let bp := extractPathFilename base.path
    let up := extractPathFilename url.path
    let rest := dropCommonSegs (splitChar '/' bp.1) (splitChar '/' up.1)
    let ups := (rest.1.takeWhile (fun s => s ≠ "")).map (fun _ => "../")
    let downs := rest.2.map (fun s => s ++ "/")
    some (String.join (ups ++ downs) ++ up.2)

/-- `SourceFile::add_definition`: keep only the defines located in this
file; zero surviving defines is a hard error (the `NonEmpty` conversion
fails). -/
def SourceFile.add_definition (sf : SourceFile) (definition : Definition) :
    Except String SourceFile :=
  match definition.defines.toList.filter (fun df => df.location.file == sf.uri) with
  | [] => .error "No defines belong to this file"
  | h :: t =>
    .ok { sf with definitions := sf.definitions ++ [{ definition with defines := ⟨h, t⟩ }] }

/-- First-occurrence deduplication (`itertools::unique`). -/
def uniqueUrls (seen : List Url) : List Url → List Url
  | [] => []
  | u :: us =>
    if seen.contains u then uniqueUrls seen us
    else u :: uniqueUrls (u :: seen) us

/-- `Workspace::load`.  Real file I/O is abstracted by `fs`, mapping a
URI to its text when the file is readable; `SourceFile::open` fails
otherwise. -/
def Workspace.load (ws : Workspace) (fs : Url → Option String)
    (docs : List Definition) : Except String Workspace :=
  docs.foldlM (fun w doc =>
    (uniqueUrls [] (doc.defines.toList.map (fun df => df.location.file))).foldlM
      (fun w uri =>
        match makeRelative w.root uri with
        | none =>
          -- debug!("Skipping declaration outside of workspace: ...")
          .ok w
        | some _ => do
          let files ←
            if (w.files.find? (fun p => p.1 == uri)).isSome then
              pure w.files
            else
              match fs uri with
              | some text => pure (w.files ++ [(uri, SourceFile.new uri text)])
              | none => throw "could not open file"
          match files.find? (fun p => p.1 == uri) with
          | none => throw "missing file entry"  -- the source unwraps here
          | some pr => do
            let sf ← pr.2.add_definition doc
            pure ⟨w.root, files.map (fun p => if p.1 == uri then (p.1, sf) else p)⟩)
      w)
    ws

/-- Modelled from the WHATWG URL standard as implemented by the `url`
crate (external dependency): `Url::parse` accepts a string only when it
starts with a scheme — an ASCII-alphabetic character followed by
alphanumerics or `+`/`-`/`.` and then a colon; any other string is a
relative reference and fails with a relative-URL-without-a-base error.
Successful parses are only modelled as far as recording the scheme and
the remainder, which is all `Workspace::file_depth` would observe. -/
def urlParse (s : String) : Except String Url :=
  match s.data with
  | [] => .error "relative URL without a base"
  | c :: rest =>
    if c.isAlpha then
      let schemeRest := rest.takeWhile (fun ch =>
        ch.isAlphanum || ch == '+' || ch == '-' || ch == '.')
      match rest.drop schemeRest.length with
      | ':' :: restAfter =>
        .ok ⟨String.mk (c :: schemeRest), none, none, String.mk restAfter⟩
      | _ => .error "relative URL without a base"
    else
      .error "relative URL without a base"

/-- `Url::path_segments` as an option: `none` when the serialized path
does not start with `/` (cannot-be-a-base URLs). -/
def Url.pathSegmentsOpt (u : Url) : Option (List String) :=
  if u.path.data.head? = some '/' then some u.pathSegments else none

/-- `Workspace::file_depth`.  Note two faithful quirks of the source:
the relative path string returned by `make_relative` is re-parsed with
`Url::parse` (which requires an absolute URL), and the `path_segments`
`Result` is iterated directly — iterating a `Result` yields its `Ok`
payload at most once, so `n` counts 1 or 0, not the number of
segments. -/
def Workspace.file_depth (ws : Workspace) (file : SourceFile) :
    Except String Nat :=
  match makeRelative ws.root file.uri with
  | none => .error "File not rooted in workspace"
  | some rel =>
    match urlParse rel with
    | .error e => .error e
    | .ok relUrl =>
      let n : Nat := if relUrl.pathSegmentsOpt.isSome then 1 else 0
      .ok (n - 1)

/-- Strict comparison used by the workspace iterator: depth first, then
file name (via `to_file_path().file_name()`, i.e. the last path
segment).  Only meaningful when `file_depth` succeeded for both files. -/
def sourceFileLt (ws : Workspace) (a b : SourceFile) : Bool :=
  let da := ((ws.file_depth a).toOption).getD 0
  let db := ((ws.file_depth b).toOption).getD 0
  da < db || (da == db && strLtB a.uri.fileName b.uri.fileName)

/-- Stable insertion of one element into a sorted list (insertion sort is
stable, like the `itertools::sorted_by` merge sort it models). -/
def insertSourceFile (ws : Workspace) (x : SourceFile) :
    List SourceFile → List SourceFile
  | [] => [x]
  | y :: ys =>
    if sourceFileLt ws y x then y :: insertSourceFile ws x ys else x :: y :: ys

/-- Stable sort of source files by `sourceFileLt`. -/
def sortSourceFiles (ws : Workspace) : List SourceFile → List SourceFile
  | [] => []
  | x :: xs => insertSourceFile ws x (sortSourceFiles ws xs)

/-- `IntoIterator for &Workspace`: sort the files by
`(file_depth, file_name)`.  The sort comparator calls
`file_depth(..).unwrap()`; `sort_by` invokes the comparator at least once
whenever there are two or more elements, and every invocation evaluates
both depths, so any failing `file_depth` panics the iteration — modelled
as an error.  With at most one element the comparator never runs. -/
def Workspace.iterFiles (ws : Workspace) : Except String (List SourceFile) :=
  let vs := ws.files.map (fun p => p.2)
  if vs.length ≤ 1 then
    .ok vs
  else
    match vs.mapM ws.file_depth with
    | .error e => .error e
    | .ok _ => .ok (sortSourceFiles ws vs)

/-! ## The passes (`src/passes/*.rs`) -/

/-- The body of the `parse_set_fields` loop
(`src/passes/parse_set_fields.rs`) for one definition. -/
def processSetField (meta_file : MetaFile) (definition : Definition) :
    Except String MetaFile :=
  if ¬(definition.defines.head.define_type == .SetField
      || definition.defines.head.define_type == .SetIndex) then
    .ok meta_file
  else
    match definition.defines.head.extends_.head? with
    | none => .error "Expected an extends for setfield"
    | some ext =>
      match splitOnceDot definition.name with
      | none => .error "Invalid setfield name"
      | some (table_name, field_name) =>
        match findAL meta_file.items table_name with
        | none =>
          -- debug!("Skipping missing table reference ...")
          .ok meta_file
        | some item =>
          match item.inner with
          | .Table tb =>
            match ext.extends_type with
            | .Binary | .Integer | .Nil | .Number | .String | .Table =>
              .ok (meta_file.withItems (setAL meta_file.items table_name
                { item with inner := .Table (tb.add_field
                    ⟨field_name, definition.rawdesc, ext.view⟩) }))
            | .Function =>
              match Function.parse ext with
              | .error e => .error e
              | .ok fn =>
                .ok (meta_file.withItems (setAL meta_file.items table_name
                  { item with inner := .Table (tb.add_function
                      ⟨field_name, fn⟩) }))
            | _ => .error "Unexpected setfield type"
          | .Class _ =>
            -- Ignore, already set via "fields" attribute
            .ok meta_file
          | _ => .error "Setting field for non-table"

/-- `parse_set_fields`: fold the loop body over the file's definitions. -/
def parse_set_fields (meta_file : MetaFile) (source_file : SourceFile) :
    Except String MetaFile :=
  source_file.definitions.foldlM processSetField meta_file

/-- The body of the `parse_table_fields` loop
(`src/passes/parse_table_fields.rs`) for one definition. -/
def processTableField (meta_file : MetaFile) (definition : Definition) :
    Except String MetaFile :=
  if ¬(definition.defines.head.define_type == .TableField) then
    .ok meta_file
  else
    match splitOnceDot definition.name with
    | none => .error "Invalid tablefield name"
    | some (enum_name, field_name) =>
      match findAL meta_file.items enum_name with
      | none =>
        -- debug!("Skipping missing enum reference ...")
        .ok meta_file
      | some item =>
        match item.inner with
        | .Enum en =>
          .ok (meta_file.withItems (setAL meta_file.items enum_name
            { item with inner := .Enum (en.add_field
                ⟨field_name, definition.rawdesc, ""⟩) }))
        | _ => .error "Setting field for non enum"

/-- `parse_table_fields`: fold the loop body over the file's
definitions. -/
def parse_table_fields (meta_file : MetaFile) (source_file : SourceFile) :
    Except String MetaFile :=
  source_file.definitions.foldlM processTableField meta_file

/-- The class names present in an item map
(`src/passes/merge_class_tables.rs` collects the Class-valued items). -/
def classNames (items : List (String × DocItem)) : List String :=
  ((items.map (fun p => p.2)).filter (fun it =>
    match it.inner with
    | .Class _ => true
    | _ => false)).map (fun it => it.name)

/-- Whether an item is a Table whose `view` equals the name of some Class
item of the map (the condition under which `merge_class_tables` records
its name for removal). -/
def isMatchingTable (items : List (String × DocItem)) (it : DocItem) : Bool :=
  match it.inner with
  | .Table tb => decide (tb.view ∈ classNames items)
  | _ => false

/-- The removal list built by `merge_class_tables` (one entry per
matching Table item; the source pushes once per matching Class, but
removal is by key so only membership matters). -/
def removals (items : List (String × DocItem)) : List String :=
  ((items.map (fun p => p.2)).filter (isMatchingTable items)).map
    (fun it => it.name)

/-- The item map after `merge_class_tables` removed the recorded keys. -/
def mergeItems (items : List (String × DocItem)) : List (String × DocItem) :=
  items.filter (fun p => ¬p.1 ∈ removals items)

/-- `merge_class_tables`.  The `bail!("expected table")` arm of the inner
match is unreachable (the outer iteration ranges over Table-valued items
only), so the pass never fails. -/
def merge_class_tables (meta_file : MetaFile) (_source_file : SourceFile) :
    Except String MetaFile :=
  .ok (meta_file.withItems (mergeItems meta_file.items))

/-! ## The tree builder (`src/doctree.rs`, `build_tree`) -/

/-- The match condition of the `for_each_mut` closure inside
`build_tree`: the visited node's depth is exactly one less than the
candidate's, and its file stem equals the candidate's parent-directory
name (`dirname().unwrap_or_default()`). -/
def childMatch (cand : MetaFile) (uri : Url) : Bool :=
  uri.depth == cand.uri.depth - 1
    && uri.fileStem == cand.uri.dirname.getD ""

/-- The `tree.for_each_mut(..)` call of `build_tree` for one candidate:
visit every node of the forest (children before their parent, exactly as
`for_each_mut` recurses before invoking the closure) and push a copy of
the candidate onto the children of every node satisfying `childMatch`.
The closure reads only the visited node's URI, which the recursion never
changes, so the condition is stated on the original node. -/
def attachCandidate (cand : MetaFile) : List MetaFile → List MetaFile
  | [] => []
  | .mk uri children items :: ns =>
    (if childMatch cand uri then
      MetaFile.mk uri (attachCandidate cand children ++ [cand]) items
    else
      MetaFile.mk uri (attachCandidate cand children) items)
      :: attachCandidate cand ns

/-- The sort key comparison of `build_tree`: relative depth from the
root, then file name. -/
def metaFileLt (root : Url) (a b : MetaFile) : Bool :=
  a.uri.relativeDepth root < b.uri.relativeDepth root
    || (a.uri.relativeDepth root == b.uri.relativeDepth root
        && strLtB a.uri.fileName b.uri.fileName)

/-- Stable insertion for the meta-file sort. -/
def insertMetaFile (root : Url) (x : MetaFile) : List MetaFile → List MetaFile
  | [] => [x]
  | y :: ys =>
    if metaFileLt root y x then y :: insertMetaFile root x ys
    else x :: y :: ys

/-- Stable sort of the meta files by `(relative depth, file name)`
(insertion sort, stable like the `itertools::sorted_by` it models). -/
def sortMetaFiles (root : Url) : List MetaFile → List MetaFile
  | [] => []
  | x :: xs => insertMetaFile root x (sortMetaFiles root xs)

/-- `build_tree`: sort, then append relative-depth-1 files as roots and
run the attach traversal for every deeper file. -/
def build_tree (root : Url) (meta_files : List MetaFile) : List MetaFile :=
  (sortMetaFiles root meta_files).foldl
    (fun tree meta_file =>
      if meta_file.uri.relativeDepth root == 1 then
        tree ++ [meta_file]
      else
        attachCandidate meta_file tree)
    []

/-- Number of times a node with the given URI occurs in some `children`
list anywhere in the forest (how often a candidate was attached). -/
def occForest (u : Url) : List MetaFile → Nat
  | [] => 0
  | .mk _ children _ :: ns =>
    children.countP (fun c => c.uri == u) + occForest u children + occForest u ns

/-- Number of nodes of the forest satisfying `childMatch` for the
candidate. -/
def countMatchForest (cand : MetaFile) : List MetaFile → Nat
  | [] => 0
  | .mk uri children _ :: ns =>
    (if childMatch cand uri then 1 else 0)
      + countMatchForest cand children + countMatchForest cand ns

/-- No node anywhere in the forest carries the given URI. -/
def uriFresh (u : Url) : List MetaFile → Bool
  | [] => true
  | .mk uri children _ :: ns =>
    !(uri == u) && uriFresh u children && uriFresh u ns

/-! ## Concrete instances used by the witnesses and counterexamples -/

/-- An all-zero range, used where a range value is required but not
inspected. -/
def rangeZero : Range := ⟨⟨0, 0⟩, ⟨0, 0⟩⟩

/-- A location at the given URI with the zero range. -/
def locAt (u : Url) : Location := ⟨u, rangeZero⟩

/-- The workspace root `file:///ws` (no trailing slash). -/
def urlWsRoot : Url := ⟨"file", some "", none, "/ws"⟩

/-- The workspace root `file:///ws/` (with trailing slash). -/
def urlWsRootSlash : Url := ⟨"file", some "", none, "/ws/"⟩

/-- `file:///ws/m` — an extensionless file directly under the root. -/
def urlM : Url := ⟨"file", some "", none, "/ws/m"⟩

/-- `file:///ws/m.lua`. -/
def urlMLua : Url := ⟨"file", some "", none, "/ws/m.lua"⟩

/-- `file:///ws/m.m`. -/
def urlMM : Url := ⟨"file", some "", none, "/ws/m.m"⟩

/-- `file:///ws/m/c.lua` — a candidate whose parent directory is `m`. -/
def urlC : Url := ⟨"file", some "", none, "/ws/m/c.lua"⟩

/-- `file:///ws/a.lua`. -/
def urlALua : Url := ⟨"file", some "", none, "/ws/a.lua"⟩

/-- `file:///ws/b.lua`. -/
def urlBLua : Url := ⟨"file", some "", none, "/ws/b.lua"⟩

/-- `file:///lib/base.lua` — a file NOT path-prefixed by `file:///ws/`. -/
def urlLib : Url := ⟨"file", some "", none, "/lib/base.lua"⟩

/-- Meta file for `file:///ws/m`. -/
def nodeM : MetaFile := MetaFile.new urlM

/-- Meta file for `file:///ws/m.lua`. -/
def nodeMLua : MetaFile := MetaFile.new urlMLua

/-- Meta file for `file:///ws/m.m`. -/
def nodeMM : MetaFile := MetaFile.new urlMM

/-- Meta file for the candidate `file:///ws/m/c.lua`. -/
def candC : MetaFile := MetaFile.new urlC

/-- A definition located outside the workspace root (it defines a global
at `file:///lib/base.lua`). -/
def defLib : Definition :=
  ⟨.variableKind, "BaseThing", none, ⟨⟨.SetGlobal, locAt urlLib, []⟩, []⟩, []⟩

/-- A read-everything filesystem view for `urlLib`. -/
def fsLib : Url → Option String :=
  fun u => if u == urlLib then some "" else none

/-- The empty workspace rooted at `file:///ws/`. -/
def wsEmpty : Workspace := ⟨urlWsRootSlash, []⟩

/-- A workspace holding two files below its root. -/
def wsTwo : Workspace :=
  ⟨urlWsRootSlash,
    [(urlALua, SourceFile.new urlALua ""), (urlBLua, SourceFile.new urlBLua "")]⟩

/-- A `SetField` definition named `a.b` carrying NO extends record. -/
def defBadSetField : Definition :=
  ⟨.variableKind, "a.b", none, ⟨⟨.SetField, locAt urlALua, []⟩, []⟩, []⟩

/-- An empty meta file. -/
def mfEmpty : MetaFile := MetaFile.new urlALua

/-- A source file holding only `defBadSetField`. -/
def sfBad : SourceFile := ⟨urlALua, [defBadSetField], ""⟩

/-- A Table-tagged extends record. -/
def extTable : Extends := ⟨.Table, "table", none, [], []⟩

/-- A `SetField` definition named `a.b` WITH a Table extends, whose owner
`a` is missing from the item map. -/
def defSetMissing : Definition :=
  ⟨.variableKind, "a.b", none, ⟨⟨.SetField, locAt urlALua, [extTable]⟩, []⟩, []⟩

/-- A `TableField` definition named `a.b` whose owner `a` is missing. -/
def defTableMissing : Definition :=
  ⟨.variableKind, "a.b", none, ⟨⟨.TableField, locAt urlALua, []⟩, []⟩, []⟩

/-- A class item named `Foo`. -/
def classFoo : DocItem := ⟨"Foo", none, rangeZero, .Class ⟨[], []⟩⟩

/-- A meta file whose item map holds the class `Foo`. -/
def mfWithFoo : MetaFile := .mk urlALua [] [("Foo", classFoo)]

/-- A `SetField` definition `Foo.bar` with a Table extends tag,
targeting the class `Foo`. -/
def defSetFooBar : Definition :=
  ⟨.variableKind, "Foo.bar", none, ⟨⟨.SetField, locAt urlALua, [extTable]⟩, []⟩, []⟩

/-- A table item named `FooTbl` whose view is `Foo`. -/
def tableFooView : DocItem := ⟨"FooTbl", none, rangeZero, .Table ⟨"Foo", [], []⟩⟩

/-- A meta file holding a Table whose view names the Class beside it. -/
def mfMerge : MetaFile := .mk urlALua [] [("FooTbl", tableFooView), ("Foo", classFoo)]

/-- `mfMerge` after one run of the merge pass. -/
def mfMerged : MetaFile := .mk urlALua [] [("Foo", classFoo)]

/-- An empty source file (the merge pass ignores its argument). -/
def sfEmpty : SourceFile := SourceFile.new urlALua ""

/-- A table item named `Bar`. -/
def tableBar : DocItem := ⟨"Bar", none, rangeZero, .Table ⟨"Bar", [], []⟩⟩

/-- A meta file holding the table `Bar`. -/
def mfWithBar : MetaFile := .mk urlALua [] [("Bar", tableBar)]

/-- A `SetField` definition `Bar.x` with an integer extends tag. -/
def defSetBarX : Definition :=
  ⟨.variableKind, "Bar.x", none,
    ⟨⟨.SetField, locAt urlALua, [⟨.Integer, "integer", none, [], []⟩]⟩, []⟩, []⟩

/-- A source file holding only `defSetBarX`. -/
def sfBarX : SourceFile := ⟨urlALua, [defSetBarX], ""⟩

/-- `mfWithBar` after `parse_set_fields` attached the field `x`. -/
def mfBarAfter : MetaFile :=
  .mk urlALua []
    [("Bar", ⟨"Bar", none, rangeZero,
      .Table ⟨"Bar", [("x", ⟨"x", none, "integer"⟩)], []⟩⟩)]

/-- A Table-tagged extends record with view `MyTable`. -/
def extMyTable : Extends := ⟨.Table, "MyTable", none, [], []⟩

/-- A `SetGlobal` definition whose first extends is Table-tagged. -/
def defGlobalTable : Definition :=
  ⟨.variableKind, "G", none, ⟨⟨.SetGlobal, locAt urlALua, [extMyTable]⟩, []⟩, []⟩

/-! # Theorems -/

/-- C8.  Position round-trip with clamping: for `line < 2^63 / 10000`
(that quotient is 922337203685477) and `character < 10000`,
`unpack (pack p) = p`; and packing clamps the character component to
9999 whenever `character ≥ 10000`, so the round-trip then yields
`(line, 9999)`. -/
theorem position_pack_unpack (p : Position) :
    (p.line < 922337203685477 → p.character < 10000 →
      Position.unpack (Position.pack p) = p)
    ∧ (p.line < 922337203685477 → 10000 ≤ p.character →
      Position.unpack (Position.pack p) = ⟨p.line, 9999⟩) := by
  obtain ⟨l, c⟩ := p
  have h64 : (2 : Nat) ^ 64 = 18446744073709551616 := by norm_num
  dsimp only
  constructor
  · intro h1 h2
    have hmin : min c (10000 - 1) = c := by omega
    have hlt : l * 10000 + c < 2 ^ 64 := by rw [h64]; omega
    simp only [Position.pack, Position.unpack, hmin, Nat.mod_eq_of_lt hlt,
      Position.mk.injEq]
    omega
  · intro h1 h2
    have hmin : min c (10000 - 1) = 9999 := by omega
    have hlt : l * 10000 + 9999 < 2 ^ 64 := by rw [h64]; omega
    simp only [Position.pack, Position.unpack, hmin, Nat.mod_eq_of_lt hlt,
      Position.mk.injEq]
    omega

/-- Witness for C8 at concrete positions. -/
theorem position_pack_unpack_witness :
    Position.unpack (Position.pack ⟨5, 123⟩) = ⟨5, 123⟩
    ∧ Position.unpack (Position.pack ⟨7, 123456⟩) = ⟨7, 9999⟩ :=
  ⟨(position_pack_unpack ⟨5, 123⟩).1 (by norm_num) (by norm_num),
   (position_pack_unpack ⟨7, 123456⟩).2 (by norm_num) (by norm_num)⟩

/-- C9.  Range join asymmetry: for valid ranges, `join` returns `self`
unchanged whenever `other.start < self.end` (regardless of
`other.end`), and otherwise the range from `self.start` to `other.end`;
and constructing a range with `start > end` fails. -/
theorem range_new_join_spec (r o : Range)
    (_hr : Position.leb r.start r.end_ = true)
    (_ho : Position.leb o.start o.end_ = true) :
    (Position.ltb o.start r.end_ = true → Range.join r o = r)
    ∧ (Position.ltb o.start r.end_ = false →
        Range.join r o = ⟨r.start, o.end_⟩)
    ∧ (∀ s e : Position, Position.leb s e = false → Range.new s e = none) := by
  refine ⟨fun h => ?_, fun h => ?_, fun s e h => ?_⟩
  · simp [Range.join, h]
  · simp [Range.join, h]
  · simp [Range.new, h]

/-- Witness for C9: `other` overlaps `r` and extends past its end
(`(9,9) > (2,0)`), yet `join` returns `r` unchanged. -/
theorem range_new_join_witness :
    Range.join ⟨⟨0, 0⟩, ⟨2, 0⟩⟩ ⟨⟨1, 0⟩, ⟨9, 9⟩⟩ = ⟨⟨0, 0⟩, ⟨2, 0⟩⟩ :=
  (range_new_join_spec ⟨⟨0, 0⟩, ⟨2, 0⟩⟩ ⟨⟨1, 0⟩, ⟨9, 9⟩⟩
    (by decide) (by decide)).1 (by decide)

/-- C2.  Evaluation at the failing input: `file:///lib/base.lua` is not
path-prefixed by the root `file:///ws/`, yet `Workspace::load` does NOT
skip the pairing — `Url::make_relative` only fails on a scheme/host/port
mismatch, so the skip branch is dead for file URIs and a `SourceFile`
entry is created for the outside file. -/
theorem workspace_load_outside_root_not_skipped :
    (Workspace.load wsEmpty fsLib [defLib]).map (fun w => w.files.map Prod.fst)
      = .ok [urlLib] := by
  rfl

/-- C3.  Evaluation at the failing input: for a workspace holding two
files below its root, the iteration comparator's `file_depth` re-parses
the relative path string (here `"a.lua"`) as an absolute URL, which
fails, so the comparator's `unwrap` panics — enumeration never yields the
sorted file list. -/
theorem workspace_iter_file_depth_panics :
    Workspace.iterFiles wsTwo = .error "relative URL without a base" := by
  rfl

/-- C4, counterexample.  A `SetField` definition named `a.b` with NO
extends record and owner `a` absent from the (empty) item map: the claim
as stated says the pass succeeds without modifying the file, but the
source checks `extends.first()` BEFORE the missing-owner skip and fails
hard. -/
theorem set_fields_missing_owner_error_cex :
    parse_set_fields mfEmpty sfBad = .error "Expected an extends for setfield" := by
  rfl

/-- C4, amended.  For a `SetField`/`SetIndex` record that carries at
least one extends entry and a dotted name, and for any `TableField`
record with a dotted name, a missing owner makes the pass succeed for
that record without modifying the `MetaFile`. -/
theorem attachment_missing_owner_skip (mf : MetaFile) (d : Definition) :
    (∀ owner member,
      (d.defines.head.define_type = .SetField
        ∨ d.defines.head.define_type = .SetIndex) →
      d.defines.head.extends_ ≠ [] →
      splitOnceDot d.name = some (owner, member) →
      findAL mf.items owner = none →
      processSetField mf d = .ok mf)
    ∧ (∀ owner member,
      d.defines.head.define_type = .TableField →
      splitOnceDot d.name = some (owner, member) →
      findAL mf.items owner = none →
      processTableField mf d = .ok mf) := by
  constructor
  · intro owner member hk hex hsplit hfind
    obtain ⟨e, rest, hex2⟩ : ∃ e rest, d.defines.head.extends_ = e :: rest := by
      cases hc : d.defines.head.extends_ with
      | nil => exact absurd hc hex
      | cons e rest => exact ⟨e, rest, rfl⟩
    unfold processSetField
    rcases hk with hk | hk <;> simp [hk, hex2, hsplit, hfind]
  · intro owner member hk hsplit hfind
    unfold processTableField
    simp [hk, hsplit, hfind]

/-- Witness for C4 (amended) at concrete records with owner `a` missing
from the empty item map. -/
theorem attachment_missing_owner_skip_witness :
    processSetField mfEmpty defSetMissing = .ok mfEmpty
    ∧ processTableField mfEmpty defTableMissing = .ok mfEmpty :=
  ⟨(attachment_missing_owner_skip mfEmpty defSetMissing).1 "a" "b"
      (Or.inl rfl) (by decide) (by decide) (by decide),
   (attachment_missing_owner_skip mfEmpty defTableMissing).2 "a" "b"
      rfl (by decide) (by decide)⟩

/-- C7.  Set-field pass Class no-op: when the owner item of a
`SetField`/`SetIndex` record is present and is a Class, the record is
processed successfully and leaves the `MetaFile` (in particular the
owner item) completely unchanged, whatever the extends tag. -/
theorem set_field_class_noop (mf : MetaFile) (d : Definition)
    (owner member : String) (c : Class) (it : DocItem)
    (e : Extends) (rest : List Extends)
    (hk : d.defines.head.define_type = .SetField
      ∨ d.defines.head.define_type = .SetIndex)
    (hex : d.defines.head.extends_ = e :: rest)
    (hsplit : splitOnceDot d.name = some (owner, member))
    (hfind : findAL mf.items owner = some it)
    (hclass : it.inner = .Class c) :
    processSetField mf d = .ok mf := by
  unfold processSetField
  rcases hk with hk | hk <;> simp [hk, hex, hsplit, hfind, hclass]

/-- Witness for C7: a file holding the class `Foo` and a record
`Foo.bar` with a Table extends tag. -/
theorem set_field_class_noop_witness :
    processSetField mfWithFoo defSetFooBar = .ok mfWithFoo :=
  set_field_class_noop mfWithFoo defSetFooBar "Foo" "bar" ⟨[], []⟩ classFoo
    extTable [] (Or.inl rfl) rfl (by decide) (by decide) rfl

/-! ### Helper lemmas about the item maps -/

/-- Projection of `withItems`. -/
@[simp]
theorem MetaFile.items_withItems (m : MetaFile) (i : List (String × DocItem)) :
    (m.withItems i).items = i := by
  cases m
  rfl

/-- `withItems` with the unchanged item map is the identity. -/
@[simp]
theorem MetaFile.withItems_items (m : MetaFile) :
    m.withItems m.items = m := by
  cases m
  rfl

/-- Membership in the merged item map. -/
theorem mem_mergeItems {items : List (String × DocItem)} {p : String × DocItem}
    (h : p ∈ mergeItems items) : p ∈ items ∧ ¬p.1 ∈ removals items := by
  unfold mergeItems at h
  have h2 := List.mem_filter.mp h
  exact ⟨h2.1, by simpa using h2.2⟩

/-- Merging only removes entries, so the class names of the merged map
all occur among the original class names. -/
theorem classNames_mergeItems_subset (items : List (String × DocItem)) :
    ∀ x ∈ classNames (mergeItems items), x ∈ classNames items := by
  intro x hx
  unfold classNames at hx ⊢
  rcases List.mem_map.mp hx with ⟨it, hit, rfl⟩
  rcases List.mem_filter.mp hit with ⟨hin, hcls⟩
  rcases List.mem_map.mp hin with ⟨p, hp, rfl⟩
  exact List.mem_map.mpr ⟨p.2,
    List.mem_filter.mpr ⟨List.mem_map.mpr ⟨p, (mem_mergeItems hp).1, rfl⟩, hcls⟩, rfl⟩

/-- A table matching against the merged map also matches against the
original map. -/
theorem isMatchingTable_mono (items : List (String × DocItem)) (it : DocItem)
    (h : isMatchingTable (mergeItems items) it = true) :
    isMatchingTable items it = true := by
  unfold isMatchingTable at h ⊢
  cases hin : it.inner with
  | Table tb =>
    rw [hin] at h
    simp only [decide_eq_true_eq] at h
    simp only [decide_eq_true_eq]
    exact classNames_mergeItems_subset items _ h
  | Class c => rw [hin] at h; exact absurd h (by simp)
  | TypeAlias t => rw [hin] at h; exact absurd h (by simp)
  | Enum e => rw [hin] at h; exact absurd h (by simp)
  | Global g => rw [hin] at h; exact absurd h (by simp)

/-- The name of a matching table value belongs to the removal list. -/
theorem name_mem_removals {items : List (String × DocItem)} {it : DocItem}
    (hin : it ∈ items.map (fun p => p.2))
    (hm : isMatchingTable items it = true) :
    it.name ∈ removals items := by
  unfold removals
  exact List.mem_map.mpr ⟨it, List.mem_filter.mpr ⟨hin, hm⟩, rfl⟩

/-- Removal keys of the merged map were already removal keys of the
original map. -/
theorem removals_mergeItems_subset (items : List (String × DocItem)) :
    ∀ x ∈ removals (mergeItems items), x ∈ removals items := by
  intro x hx
  unfold removals at hx
  rcases List.mem_map.mp hx with ⟨it, hit, rfl⟩
  rcases List.mem_filter.mp hit with ⟨hin, hmatch⟩
  rcases List.mem_map.mp hin with ⟨p, hp, rfl⟩
  exact name_mem_removals (List.mem_map.mpr ⟨p, (mem_mergeItems hp).1, rfl⟩)
    (isMatchingTable_mono items _ hmatch)

/-- One merge reaches a fixed point of the item-map transformation. -/
theorem mergeItems_idem (items : List (String × DocItem)) :
    mergeItems (mergeItems items) = mergeItems items := by
  conv_lhs => rw [mergeItems]
  apply List.filter_eq_self.mpr
  intro p hp
  simp only [decide_eq_true_eq]
  intro hmem
  exact (mem_mergeItems hp).2 (removals_mergeItems_subset items _ hmem)

/-- C5.  Merge-pass idempotence: a second run of `merge_class_tables`
returns its input unchanged; moreover (for item maps keyed by item name,
as the passes build them) no Table whose view names a Class of the same
file survives the first run. -/
theorem merge_class_tables_idempotent (mf : MetaFile) (sf : SourceFile)
    (mf' : MetaFile) (h : merge_class_tables mf sf = .ok mf') :
    merge_class_tables mf' sf = .ok mf'
    ∧ ((∀ p ∈ mf.items, p.1 = p.2.name) →
        ∀ p ∈ mf'.items, isMatchingTable mf'.items p.2 = false) := by
  have hitems : mf'.items = mergeItems mf.items := by
    unfold merge_class_tables at h
    injection h with h2
    rw [← h2]
    simp
  constructor
  · unfold merge_class_tables
    rw [hitems, mergeItems_idem, ← hitems]
    simp
  · intro hkey p hp
    rw [hitems] at hp ⊢
    by_contra hmt
    rw [Bool.not_eq_false] at hmt
    have h2 : isMatchingTable mf.items p.2 = true := isMatchingTable_mono _ _ hmt
    have hpin := mem_mergeItems hp
    have hname := hkey p hpin.1
    exact hpin.2 (hname ▸ name_mem_removals
      (List.mem_map.mpr ⟨p, hpin.1, rfl⟩) h2)

/-- Witness for C5 at a concrete file holding one matching Table/Class
pair. -/
theorem merge_class_tables_idempotent_witness :
    merge_class_tables mfMerged sfEmpty = .ok mfMerged :=
  (merge_class_tables_idempotent mfMerge sfEmpty mfMerged rfl).1

/-! ### Key preservation of the attachment passes -/

/-- Writing through a key leaves the key list unchanged. -/
theorem setAL_keys {α : Type} (l : List (String × α)) (k : String) (v : α) :
    (setAL l k v).map Prod.fst = l.map Prod.fst := by
  unfold setAL
  rw [List.map_map]
  apply List.map_congr_left
  intro p _
  by_cases hp : p.1 = k <;> simp [hp]

/-- One step of the set-field pass preserves the item keys. -/
theorem processSetField_keys (m : MetaFile) (d : Definition) (m' : MetaFile)
    (h : processSetField m d = .ok m') :
    m'.items.map Prod.fst = m.items.map Prod.fst := by
  unfold processSetField at h
  repeat' split at h
  all_goals
    first
      | exact Except.noConfusion h
      | (injection h with h2; subst h2; simp [setAL_keys])

/-- One step of the table-field pass preserves the item keys. -/
theorem processTableField_keys (m : MetaFile) (d : Definition) (m' : MetaFile)
    (h : processTableField m d = .ok m') :
    m'.items.map Prod.fst = m.items.map Prod.fst := by
  unfold processTableField at h
  repeat' split at h
  all_goals
    first
      | exact Except.noConfusion h
      | (injection h with h2; subst h2; simp [setAL_keys])

/-- A fold of key-preserving steps preserves the item keys. -/
theorem foldlM_items_keys
    {step : MetaFile → Definition → Except String MetaFile}
    (hstep : ∀ m d m', step m d = .ok m' →
      m'.items.map Prod.fst = m.items.map Prod.fst) :
    ∀ (ds : List Definition) (m m' : MetaFile),
      List.foldlM step m ds = .ok m' →
      m'.items.map Prod.fst = m.items.map Prod.fst := by
  intro ds
  induction ds with
  | nil =>
    intro m m' h
    simp only [List.foldlM_nil] at h
    injection h with h2
    rw [h2]
  | cons d ds ih =>
    intro m m' h
    rw [List.foldlM_cons] at h
    cases hs : step m d with
    | error e =>
      rw [hs] at h
      exact Except.noConfusion h
    | ok m2 =>
      rw [hs] at h
      exact (ih m2 m' h).trans (hstep m d m2 hs)

/-- C10.  The attachment passes never create or delete top-level items:
a successful run of `parse_set_fields` or `parse_table_fields` leaves
the (ordered) list of item keys — in particular the set of item names —
exactly as it was. -/
theorem attachment_passes_preserve_item_names (mf : MetaFile) (sf : SourceFile) :
    (∀ mf', parse_set_fields mf sf = .ok mf' →
      mf'.items.map Prod.fst = mf.items.map Prod.fst)
    ∧ (∀ mf', parse_table_fields mf sf = .ok mf' →
      mf'.items.map Prod.fst = mf.items.map Prod.fst) :=
  ⟨fun mf' h => foldlM_items_keys processSetField_keys sf.definitions mf mf' h,
   fun mf' h => foldlM_items_keys processTableField_keys sf.definitions mf mf' h⟩

/-- Witness for C10: a run that modifies the table `Bar` in place keeps
the key list `["Bar"]`. -/
theorem attachment_passes_preserve_item_names_witness :
    parse_set_fields mfWithBar sfBarX = .ok mfBarAfter
    ∧ mfBarAfter.items.map Prod.fst = mfWithBar.items.map Prod.fst :=
  ⟨rfl,
   (attachment_passes_preserve_item_names mfWithBar sfBarX).1 mfBarAfter rfl⟩

/-- C6.  SetGlobal classification by the first extends entry's tag:
Table yields a Table stub with that entry's view and empty maps; a
primitive tag yields `Global::Primitive` carrying the view; Function
yields `Global::Function` (with the `"(method) "` marker stripped from
the view); a doc-type reference tag, or a missing extends entry, is a
hard error. -/
theorem setglobal_classification (d : Definition)
    (h : d.defines.head.define_type = .SetGlobal) :
    (d.defines.head.extends_ = [] →
      DocItem.parse d = .error "expected extends for setglobal")
    ∧ (∀ e rest, d.defines.head.extends_ = e :: rest →
        ((e.extends_type = .Table →
          DocItem.parse d = .ok (some ⟨d.name, d.rawdesc,
            d.defines.head.location.range, .Table ⟨e.view, [], []⟩⟩))
        ∧ (isPrimitiveTag e.extends_type = true →
          DocItem.parse d = .ok (some ⟨d.name, d.rawdesc,
            d.defines.head.location.range, .Global (.Primitive ⟨e.view⟩)⟩))
        ∧ (e.extends_type = .Function →
          DocItem.parse d = .ok (some ⟨d.name, d.rawdesc,
            d.defines.head.location.range, .Global (.Function
              ⟨e.rawdesc, stripMethodView e.view,
                e.args.map Argument.parse, e.returns.map Return.parse⟩)⟩))
        ∧ ((e.extends_type = .DocType ∨ e.extends_type = .DocExtendsName) →
          DocItem.parse d = .error "unexpected doc extend for setglobal"))) := by
  refine ⟨?_, ?_⟩
  · intro hex
    simp [DocItem.parse, h, hex]
  · intro e rest hex
    refine ⟨?_, ?_, ?_, ?_⟩
    · intro ht
      simp [DocItem.parse, Table.parse, h, hex, ht]
      rfl
    · intro ht
      cases htag : e.extends_type <;> rw [htag] at ht <;>
        first
          | exact absurd ht (by decide)
          | (simp [DocItem.parse, Global.parse, isPrimitiveTag, h, hex, htag]
             rfl)
    · intro ht
      simp [DocItem.parse, Global.parse, Function.parse, isPrimitiveTag,
        h, hex, ht]
      rfl
    · intro ht
      rcases ht with ht | ht <;> simp [DocItem.parse, h, hex, ht]

/-- Witness for C6 at a concrete `SetGlobal` definition whose extends is
Table-tagged. -/
theorem setglobal_classification_witness :
    DocItem.parse defGlobalTable
      = .ok (some ⟨"G", none, rangeZero, .Table ⟨"MyTable", [], []⟩⟩) := by
  have h := ((setglobal_classification defGlobalTable rfl).2 extMyTable [] rfl).1 rfl
  exact h

/-! ### The tree-builder attach traversal (C1) -/

/-- Projections of `MetaFile.mk`. -/
@[simp]
theorem MetaFile.uri_mk (u : Url) (c : List MetaFile)
    (i : List (String × DocItem)) : (MetaFile.mk u c i).uri = u := rfl

/-- Children projection of `MetaFile.mk`. -/
@[simp]
theorem MetaFile.children_mk (u : Url) (c : List MetaFile)
    (i : List (String × DocItem)) : (MetaFile.mk u c i).children = c := rfl

/-- Items projection of `MetaFile.mk`. -/
@[simp]
theorem MetaFile.items_mk (u : Url) (c : List MetaFile)
    (i : List (String × DocItem)) : (MetaFile.mk u c i).items = i := rfl

/-- Induction over forests of meta files (children before siblings,
mirroring the recursion of `for_each_mut`). -/
theorem MetaFile.forest_ind {motive : List MetaFile → Prop}
    (h0 : motive [])
    (h1 : ∀ (uri : Url) (children : List MetaFile)
      (items : List (String × DocItem)) (ns : List MetaFile),
      motive children → motive ns →
      motive (MetaFile.mk uri children items :: ns)) :
    ∀ t, motive t
  | [] => h0
  | .mk uri children items :: ns =>
    h1 uri children items ns (MetaFile.forest_ind h0 h1 children)
      (MetaFile.forest_ind h0 h1 ns)

/-- The attach traversal only ever alters children lists: the top-level
URIs of the forest are untouched. -/
theorem attachCandidate_map_uri (cand : MetaFile) :
    ∀ t : List MetaFile,
      (attachCandidate cand t).map MetaFile.uri = t.map MetaFile.uri := by
  intro t
  induction t using MetaFile.forest_ind with
  | h0 => simp [attachCandidate]
  | h1 uri children items ns ihc ihns =>
    simp only [attachCandidate]
    split <;> simp [ihns]

/-- Counting top-level nodes by URI is invariant under the attach
traversal. -/
theorem countP_uri_attachCandidate (cand : MetaFile) (u : Url)
    (t : List MetaFile) :
    (attachCandidate cand t).countP (fun c => c.uri == u)
      = t.countP (fun c => c.uri == u) := by
  have h1 : ∀ l : List MetaFile,
      l.countP (fun c => c.uri == u)
        = (l.map MetaFile.uri).countP (fun v => v == u) := by
    intro l
    rw [List.countP_map]
    rfl
  rw [h1, h1, attachCandidate_map_uri]

/-- `occForest` distributes over appending forests. -/
theorem occForest_append (u : Url) :
    ∀ a b : List MetaFile,
      occForest u (a ++ b) = occForest u a + occForest u b := by
  intro a b
  induction a using MetaFile.forest_ind with
  | h0 => simp [occForest]
  | h1 uri children items ns ihc ihns =>
    simp only [List.cons_append, occForest, ihns]
    omega

/-- In a forest free of the URI, no top-level node carries it. -/
theorem uriFresh_countP (u : Url) :
    ∀ t : List MetaFile, uriFresh u t = true →
      t.countP (fun c => c.uri == u) = 0 := by
  intro t
  induction t using MetaFile.forest_ind with
  | h0 => intro _; simp
  | h1 uri children items ns ihc ihns =>
    intro h
    simp only [uriFresh, Bool.and_eq_true, Bool.not_eq_true'] at h
    rw [List.countP_cons]
    simp [MetaFile.uri_mk, h.1.1, ihns h.2]

/-- Attaching a childless candidate into a forest that nowhere carries
its URI inserts exactly one copy per matching node. -/
theorem occForest_attachCandidate (cand : MetaFile) (hch : cand.children = []) :
    ∀ t, uriFresh cand.uri t = true →
      occForest cand.uri (attachCandidate cand t)
        = countMatchForest cand t := by
  have hocc_cand : occForest cand.uri [cand] = 0 := by
    cases cand with
    | mk cu cch ci =>
      simp only [MetaFile.children_mk] at hch
      subst hch
      simp [occForest]
  intro t
  induction t using MetaFile.forest_ind with
  | h0 => intro _; simp [attachCandidate, occForest, countMatchForest]
  | h1 uri children items ns ihc ihns =>
    intro h
    simp only [uriFresh, Bool.and_eq_true, Bool.not_eq_true'] at h
    obtain ⟨⟨hu, hc⟩, hn⟩ := h
    simp only [attachCandidate]
    split
    · rename_i hmatch
      simp only [occForest, countMatchForest, hmatch, if_pos]
      rw [List.countP_append, occForest_append, countP_uri_attachCandidate,
        uriFresh_countP _ _ hc, ihc hc, ihns hn, hocc_cand]
      simp [List.countP_cons]
    · rename_i hmatch
      simp only [occForest, countMatchForest]
      rw [countP_uri_attachCandidate, uriFresh_countP _ _ hc, ihc hc, ihns hn]
      have hm : childMatch cand uri = false := by
        revert hmatch
        cases childMatch cand uri <;> simp
      simp [hm]

/-- With no matching node, the attach traversal leaves the forest
unchanged (the candidate is dropped). -/
theorem attachCandidate_nomatch (cand : MetaFile) :
    ∀ t, countMatchForest cand t = 0 → attachCandidate cand t = t := by
  intro t
  induction t using MetaFile.forest_ind with
  | h0 => intro _; simp [attachCandidate]
  | h1 uri children items ns ihc ihns =>
    intro h
    simp only [countMatchForest] at h
    split at h
    · omega
    · rename_i hm
      simp only [attachCandidate]
      split
      · rename_i hmm; exact absurd hmm hm
      · rw [ihc (by omega), ihns (by omega)]

/-- C1, amended.  The attach step of `build_tree` pushes the candidate
onto EVERY node of the already-built forest whose depth is one less than
the candidate's and whose `file_stem()` equals the candidate's
parent-directory name — one copy per matching node, not only the first
found by the depth-first traversal; a candidate with no matching node
leaves the forest unchanged (it is silently dropped). -/
theorem build_tree_attach_every_match (cand : MetaFile) (t : List MetaFile)
    (hch : cand.children = []) (hfresh : uriFresh cand.uri t = true) :
    occForest cand.uri (attachCandidate cand t) = countMatchForest cand t
    ∧ (countMatchForest cand t = 0 → attachCandidate cand t = t) :=
  ⟨occForest_attachCandidate cand hch t hfresh,
   fun h => attachCandidate_nomatch cand t h⟩

/-- Witness for C1 (amended): the concrete forest of the counterexample,
in which exactly two nodes match and both receive the candidate. -/
theorem build_tree_attach_every_match_witness :
    occForest candC.uri (attachCandidate candC [nodeM, nodeMLua, nodeMM])
      = countMatchForest candC [nodeM, nodeMLua, nodeMM] :=
  (build_tree_attach_every_match candC [nodeM, nodeMLua, nodeMM] rfl
    (by simp only [uriFresh, nodeM, nodeMLua, nodeMM, candC, MetaFile.new]
        decide)).1

/-- C1, counterexample.  Files `m`, `m.lua`, `m.m` and `m/c.lua` under
root `file:///ws`.  Under the claim's reading of file stems, all three
depth-1 files match the candidate `m/c.lua` and only the FIRST in sort
order (`m`) should receive it; the built tree instead attaches the
candidate to `m` AND to the later match `m.m` (and not to `m.lua`, whose
`file_stem()` is `"lua"`). -/
theorem build_tree_first_match_cex :
    (build_tree urlWsRoot [nodeMLua, nodeM, nodeMM, candC]).map
      (fun n => (n.uri.path, n.children.map (fun c => c.uri.path)))
      = [("/ws/m", ["/ws/m/c.lua"]), ("/ws/m.lua", []),
         ("/ws/m.m", ["/ws/m/c.lua"])] := by
  have c1 : (nodeM.uri.relativeDepth urlWsRoot == 1) = true := by decide
  have c2 : (nodeMLua.uri.relativeDepth urlWsRoot == 1) = true := by decide
  have c3 : (nodeMM.uri.relativeDepth urlWsRoot == 1) = true := by decide
  have c4 : (candC.uri.relativeDepth urlWsRoot == 1) = false := by decide
  have hs : sortMetaFiles urlWsRoot [nodeMLua, nodeM, nodeMM, candC]
      = [nodeM, nodeMLua, nodeMM, candC] := by rfl
  have hm1 : childMatch candC urlM = true := by decide
  have hm2 : childMatch candC urlMLua = false := by decide
  have hm3 : childMatch candC urlMM = true := by decide
  have h2 : attachCandidate candC [nodeM, nodeMLua, nodeMM]
      = [MetaFile.mk urlM [candC] [], MetaFile.mk urlMLua [] [],
         MetaFile.mk urlMM [candC] []] := by
    simp only [nodeM, nodeMLua, nodeMM, MetaFile.new, attachCandidate]
    rw [if_pos hm1, if_neg (by rw [hm2]; exact Bool.false_ne_true), if_pos hm3]
    rfl
  unfold build_tree
  rw [hs]
  simp only [List.foldl_cons, List.foldl_nil, c1, c2, c3, c4,
    Bool.false_eq_true, eq_self_iff_true, if_true, if_false, List.nil_append,
    List.singleton_append, List.cons_append, List.append_nil]
  rw [h2]
  rfl

end Mooncats
